import Mathlib

/-!
Verification development for `ocp-what-merged` (`main.go`).

Go strings are byte sequences, and `sanitizeMessage` indexes and measures
them by byte (`len(l)`, `l[0:80]`), so strings are modelled as `List Nat`
of byte values.  ASCII-only constants are written through `asciiBytes`.

External collaborators (the GitHub API client, the wall clock, the
`humanize.Time` renderer, the completion order of the worker-pool tasks)
are parameters of the embedded functions; everything else is translated
from the source.
-/

/-- Byte list of an ASCII string (every constant below is ASCII). -/
def asciiBytes (s : String) : List Nat :=
  s.data.map Char.toNat

/-- Go `strings.Split(s, sep)` for a one-byte separator: `n` occurrences of
the separator yield `n + 1` parts, and `Split("", sep) = [""]`. -/
def splitOnByte (sep : Nat) : List Nat → List (List Nat)
  | [] => [[]]
  | b :: rest =>
    if b == sep then [] :: splitOnByte sep rest
    else
      match splitOnByte sep rest with
      | [] => [[b]]
      | p :: ps => (b :: p) :: ps

/-- Go `strings.Join(parts, sep)` for a one-byte separator. -/
def joinBytes (sep : Nat) : List (List Nat) → List Nat
  | [] => []
  | [x] => x
  | x :: xs => x ++ sep :: joinBytes sep xs

/-- Go `utf8.RuneError` (U+FFFD). -/
def runeError : Nat := 0xFFFD

/-- A UTF-8 continuation byte (`0x80..0xBF`). -/
def isCont (b : Nat) : Bool := 0x80 ≤ b && b ≤ 0xBF

/-- Lower bound of Go `utf8`'s accept range for the second byte of a
multi-byte encoding, indexed by the first byte. -/
def accept2lo (b0 : Nat) : Nat :=
  if b0 == 0xE0 then 0xA0 else if b0 == 0xF0 then 0x90 else 0x80

/-- Upper bound of Go `utf8`'s accept range for the second byte of a
multi-byte encoding, indexed by the first byte. -/
def accept2hi (b0 : Nat) : Nat :=
  if b0 == 0xED then 0x9F else if b0 == 0xF4 then 0x8F else 0xBF

/-- Go `utf8.DecodeRune`: the first rune of the byte sequence and the number
of bytes it occupies; an invalid encoding yields `(RuneError, 1)` and the
empty sequence `(RuneError, 0)`. -/
def decodeRune : List Nat → Nat × Nat
  | [] => (runeError, 0)
  | b0 :: rest =>
    if b0 < 0x80 then (b0, 1)
    else if b0 < 0xC2 || 0xF4 < b0 then (runeError, 1)
    else
      match rest with
      | [] => (runeError, 1)
      | b1 :: rest1 =>
        if b1 < accept2lo b0 || accept2hi b0 < b1 then (runeError, 1)
        else if b0 < 0xE0 then ((b0 % 32) * 64 + b1 % 64, 2)
        else
          match rest1 with
          | [] => (runeError, 1)
          | b2 :: rest2 =>
            if b2 < 0x80 || 0xBF < b2 then (runeError, 1)
            else if b0 < 0xF0 then ((b0 % 16) * 4096 + (b1 % 64) * 64 + b2 % 64, 3)
            else
              match rest2 with
              | [] => (runeError, 1)
              | b3 :: _ =>
                if b3 < 0x80 || 0xBF < b3 then (runeError, 1)
                else ((b0 % 8) * 262144 + (b1 % 64) * 4096 + (b2 % 64) * 64 + b3 % 64, 4)

/-- Go `unicode.IsSpace`: the White_Space runes. -/
def isSpaceRune (r : Nat) : Bool :=
  r == 9 || r == 10 || r == 11 || r == 12 || r == 13 || r == 32 ||
  r == 0x85 || r == 0xA0 || r == 0x1680 ||
  (0x2000 ≤ r && r ≤ 0x200A) ||
  r == 0x2028 || r == 0x2029 || r == 0x202F || r == 0x205F || r == 0x3000

/-- Index of the first non-continuation byte among the first elements of a
list (the backwards scan of Go `utf8.DecodeLastRune`, read on the reversed
tail). -/
def findRuneStart : List Nat → Option Nat
  | [] => none
  | b :: rest => if isCont b then (findRuneStart rest).map (· + 1) else some 0

/-- Go `utf8.DecodeLastRune`: the last rune of the byte sequence and the
number of bytes it occupies.  The scan for a start byte reaches at most 4
bytes back; if the start byte found does not decode to a rune spanning
exactly the remaining bytes the result is `(RuneError, 1)`. -/
def decodeLastAux (l : List Nat) (b : Nat) (rest : List Nat) : Nat × Nat :=
  if b < 0x80 then (b, 1)
  else
    match findRuneStart (rest.take 3) with
    | none => (runeError, 1)
    | some k =>
      if (decodeRune (l.drop (l.length - (k + 2)))).2 == k + 2 then
        decodeRune (l.drop (l.length - (k + 2)))
      else (runeError, 1)

def decodeLastRune (l : List Nat) : Nat × Nat :=
  match l.reverse with
  | [] => (runeError, 0)
  | b :: rest => decodeLastAux l b rest

/-- One step per space rune of Go `strings.TrimLeftFunc(s, unicode.IsSpace)`.
The fuel only serves structural recursion: each step drops at least one
byte, so `fuel = l.length` (as `trimLeftSpace` passes) never runs out. -/
def trimLeftGo : Nat → List Nat → List Nat
  | 0, l => l
  | fuel + 1, l =>
    if isSpaceRune (decodeRune l).1 then trimLeftGo fuel (l.drop (decodeRune l).2) else l

/-- Go `strings.TrimLeftFunc(s, unicode.IsSpace)`. -/
def trimLeftSpace (l : List Nat) : List Nat :=
  trimLeftGo l.length l

/-- One step per space rune of Go `strings.TrimRightFunc(s, unicode.IsSpace)`;
fuel as in `trimLeftGo`. -/
def trimRightGo : Nat → List Nat → List Nat
  | 0, l => l
  | fuel + 1, l =>
    if isSpaceRune (decodeLastRune l).1 then
      trimRightGo fuel (l.take (l.length - (decodeLastRune l).2))
    else l

/-- Go `strings.TrimRightFunc(s, unicode.IsSpace)`. -/
def trimRightSpace (l : List Nat) : List Nat :=
  trimRightGo l.length l

/-- Go `strings.TrimSpace`: trim the leading, then the trailing space runes. -/
def trimSpace (l : List Nat) : List Nat :=
  trimRightSpace (trimLeftSpace l)

/-- Go `strings.Contains(s, pat)`: `pat` occurs as a contiguous substring
(every string contains the empty string). -/
def containsBytes (pat : List Nat) : List Nat → Bool
  | [] => pat.isEmpty
  | b :: rest => pat.isPrefixOf (b :: rest) || containsBytes pat rest

/-- Bytes of `"Signed-off-by"` (`main.go` line 98). -/
def sobBytes : List Nat := asciiBytes "Signed-off-by"

/-- Bytes of the truncation marker `" ..."` (`main.go` line 103). -/
def markerBytes : List Nat := asciiBytes " ..."

/-- Bytes of `"Merge pull request"` (`main.go` line 90). -/
def mergeBytes : List Nat := asciiBytes "Merge pull request"

/-- Bytes of `"https://github.com/"` (`main.go` lines 60 and 63). -/
def hostBytes : List Nat := asciiBytes "https://github.com/"

/-- The loop body of `sanitizeMessage` (`main.go` lines 96-106) for one
line: drop it (`continue`) when it contains `"Signed-off-by"` or its
`TrimSpace` is empty; otherwise truncate it to its first 80 bytes plus
`" ..."` when longer than 80 bytes, and append its `TrimSpace`. -/
def sanitizeLine (l : List Nat) : Option (List Nat) :=
  if containsBytes sobBytes l || (trimSpace l).length == 0 then none
  else if 80 < l.length then some (trimSpace (l.take 80 ++ markerBytes))
  else some (trimSpace l)

/-- `sanitizeMessage` (`main.go` lines 93-108): split the message on
newlines, run the loop body on each line in order, and re-join the kept
lines with newlines. -/
def sanitizeMessage (msg : List Nat) : List Nat :=
  joinBytes 10 ((splitOnByte 10 msg).filterMap sanitizeLine)

/-- The commit fields `main.go` reads: `Message` and `Committer.Date`
(`github.Commit`; the getters of `go-github` return zero values for absent
fields, so the fields are total here).  The committer date is a timestamp
as an integer. -/
structure Commit where
  message : List Nat
  committerDate : Int
deriving DecidableEq

/-- The `github.RepositoryCommit` fields `main.go` reads: `HTMLURL` and the
inner `Commit`. -/
structure RepositoryCommit where
  htmlURL : List Nat
  commit : Commit
deriving DecidableEq

/-- `isMergeCommit` (`main.go` lines 89-91): the message contains the
literal `"Merge pull request"`. -/
def isMergeCommit (commit : Commit) : Bool :=
  containsBytes mergeBytes commit.message

/-- `parseRepositoryOrgName` (`main.go` lines 59-68): require the
`https://github.com/` host prefix, strip it, split the rest on `/`, and
demand exactly two parts, which become (organization, name).  The Go
function returns `("", "", false)` on failure; `Option` models the flag. -/
def parseRepositoryOrgName (repository : List Nat) : Option (List Nat × List Nat) :=
  if hostBytes.isPrefixOf repository then
    match splitOnByte 47 (repository.drop hostBytes.length) with
    | [organization, name] => some (organization, name)
    | _ => none
  else none

/-- `ProcessOptions` (`main.go` lines 52-57).  `since` is a duration in the
same integer unit as timestamps. -/
structure ProcessOptions where
  concurrency : Nat
  since : Int
  branchName : List Nat

/-- The `github.CommitsListOptions` fields `main.go` sets (`lines 76-80`):
`SHA` (the branch) and `Since` (the cutoff timestamp). -/
structure CommitsListOptions where
  sha : List Nat
  since : Int
deriving DecidableEq

/-- The remote client: `client.Repositories.ListCommits` as a function of
organization, name and options, returning commits or a transport/API error
(the error message is an opaque byte string). -/
def GithubClient : Type :=
  List Nat → List Nat → CommitsListOptions → Except (List Nat) (List RepositoryCommit)

/-- The per-repository error of `getRepositoryChanges` (`main.go` line 73):
the reference did not parse.  Transport errors never escape (line 83). -/
inductive FetchError where
  | unparsableRepository (repository : List Nat)
deriving DecidableEq

/-- `getRepositoryChanges` (`main.go` lines 70-86).  `now` is the value of
`time.Now()` at this call (the call happens inside the repository's task).
An unparsable reference is an error; a failing remote call is logged and
absorbed into an empty commit list. -/
def getRepositoryChanges (client : GithubClient) (now : Int) (repository : List Nat)
    (options : ProcessOptions) : Except FetchError (List RepositoryCommit) :=
  match parseRepositoryOrgName repository with
  | none => .error (.unparsableRepository repository)
  | some (organization, name) =>
    match client organization name { sha := options.branchName, since := now - options.since } with
    | .error _ => .ok []
    | .ok commits => .ok commits

/-- `Change` (`main.go` lines 43-50). -/
structure Change where
  url : List Nat
  message : List Nat
  time : List Nat
  repository : List Nat
  originalTime : Int
deriving DecidableEq

/-- The body of a task's commit loop (`main.go` lines 123-135): skip merge
commits, sanitize the message, render the display time (`humanize.Time`,
wall-clock dependent, abstracted as `humanizeTime`), keep the raw
timestamp. -/
def commitChanges (humanizeTime : Int → List Nat) (repository : List Nat)
    (commits : List RepositoryCommit) : List Change :=
  commits.filterMap (fun c =>
    if isMergeCommit c.commit then none
    else some { repository := repository
                url := c.htmlURL
                message := sanitizeMessage c.commit.message
                time := humanizeTime c.commit.committerDate
                originalTime := c.commit.committerDate })

/-- One worker-pool task (`main.go` lines 118-141): fetch the repository's
commits, propagate a fetch error, otherwise build the local change list. -/
def repositoryTask (client : GithubClient) (humanizeTime : Int → List Nat) (now : Int)
    (options : ProcessOptions) (repository : List Nat) : Except FetchError (List Change) :=
  match getRepositoryChanges client now repository options with
  | .error e => .error e
  | .ok commits => .ok (commitChanges humanizeTime repository commits)

/-- The error of an `Except`, if any. -/
def exceptError? : Except FetchError (List Change) → Option FetchError
  | .error e => some e
  | .ok _ => none

/-- The changes of an `Except`, empty on error. -/
def okChanges : Except FetchError (List Change) → List Change
  | .error _ => []
  | .ok l => l

/-- The comparator of `sort.Slice` (`main.go` lines 153-155):
`changes[j].originalTime.After(changes[i].originalTime)`, that is,
`less i j ↔ time i < time j`. -/
def changeLess (a b : Change) : Bool :=
  a.originalTime < b.originalTime

/-- The final sort of `processRepositories` (`main.go` lines 152-155):
sort by the `changeLess` comparator, oldest first.  Go's `sort.Slice` is an
unstable comparison sort; it is modelled by `mergeSort` with the
non-strict order `¬ changeLess b a`, which fixes one of the permitted
orders of equal timestamps (the source guarantees none). -/
def sortChanges (l : List Change) : List Change :=
  l.mergeSort (fun a b => ! changeLess b a)

/-- The results of all tasks, indexed as the repositories are.  `tnow i` is
the wall-clock value the `i`-th task reads (`time.Now()` runs inside the
task body, so each task has its own). -/
def taskResults (client : GithubClient) (humanizeTime : Int → List Nat) (tnow : Nat → Int)
    (options : ProcessOptions) (repositories : List (List Nat)) :
    List (Except FetchError (List Change)) :=
  (List.range repositories.length).map (fun i =>
    repositoryTask client humanizeTime (tnow i) options (repositories.getD i []))

/-- The per-repository change lists in repository order (a failed fetch is
already absorbed inside `getRepositoryChanges`; an unparsable repository
appears here as the empty list, though in that case `processRepositories`
returns an error instead of any list). -/
def perRepositoryChanges (client : GithubClient) (humanizeTime : Int → List Nat)
    (tnow : Nat → Int) (options : ProcessOptions) (repositories : List (List Nat)) :
    List (List Change) :=
  (taskResults client humanizeTime tnow options repositories).map okChanges

/-- `processRepositories` (`main.go` lines 110-157).  Each repository gets
one task; the pool runs them and `Wait` returns an error iff some task
returned one (`gowp` hands back a task error, and `main.go` then returns
it, line 149).  When no task fails, each task appends its local list to the
shared slice under the mutex; `order` is the completion order in which the
appends happened (any permutation of the task indices).  The merged slice
is then sorted by `originalTime`. -/
def processRepositories (client : GithubClient) (humanizeTime : Int → List Nat)
    (tnow : Nat → Int) (options : ProcessOptions) (repositories : List (List Nat))
    (order : List Nat) : Except FetchError (List Change) :=
  match (taskResults client humanizeTime tnow options repositories).findSome?
      exceptError? with
  | some e => .error e
  | none =>
    .ok (sortChanges (order.map (fun i =>
      okChanges ((taskResults client humanizeTime tnow options repositories).getD i
        (.ok [])))).flatten)

/-- `Tag` (`main.go` lines 38-41).  The Go annotation map is modelled as an
association list (`map[string]string` has unique keys; lookup is the first
match). -/
structure Tag where
  name : List Nat
  annotations : List (List Nat × List Nat)

/-- `ReferencesSpec` (`main.go` lines 34-36). -/
structure ReferencesSpec where
  tags : List Tag

/-- `References` (`main.go` lines 30-32). -/
structure References where
  spec : ReferencesSpec

/-- `Release` (`main.go` lines 26-28). -/
structure Release where
  refs : References

/-- Bytes of the annotation key `"io.openshift.build.source-location"`
(`main.go` line 171). -/
def sourceLocationKey : List Nat := asciiBytes "io.openshift.build.source-location"

/-- One iteration of the tag loop of `getRepositoriesFromPayload`
(`main.go` lines 170-188): skip a missing or empty `source-location`
annotation; append the value unless the list already holds it. -/
def addRepository (repositories : List (List Nat)) (t : Tag) : List (List Nat) :=
  match t.annotations.lookup sourceLocationKey with
  | none => repositories
  | some sourceLocation =>
    if sourceLocation.length == 0 then repositories
    else if repositories.contains sourceLocation then repositories
    else repositories ++ [sourceLocation]

/-- The extraction loop of `getRepositoriesFromPayload` (`main.go` lines
169-189); the subprocess invocation and JSON decoding that produce the
`Release` value are external collaborators. -/
def getRepositoriesFromPayload (release : Release) : List (List Nat) :=
  release.refs.spec.tags.foldl addRepository []

/-- First-occurrence de-duplication as the spec words it ("insertion order
of first occurrence; duplicates by exact string equality are dropped"):
keep an element iff it is not among the values already seen. -/
def dedupFirstSeen : List (List Nat) → List (List Nat) → List (List Nat)
  | [], _ => []
  | x :: xs, seen =>
    if seen.contains x then dedupFirstSeen xs seen
    else x :: dedupFirstSeen xs (x :: seen)

/-- The non-empty `source-location` annotation values of the tags, in tag
order, as the spec describes them. -/
def specSourceLocations (release : Release) : List (List Nat) :=
  release.refs.spec.tags.filterMap (fun t =>
    match t.annotations.lookup sourceLocationKey with
    | none => none
    | some v => if v.length == 0 then none else some v)


instance {ε α : Type} [DecidableEq ε] [DecidableEq α] : DecidableEq (Except ε α) :=
  fun a b =>
    match a, b with
    | .error e1, .error e2 =>
      if h : e1 = e2 then isTrue (by rw [h])
      else isFalse (by intro hc; injection hc with h2; exact h h2)
    | .ok x, .ok y =>
      if h : x = y then isTrue (by rw [h])
      else isFalse (by intro hc; injection hc with h2; exact h h2)
    | .error _, .ok _ => isFalse (by intro hc; cases hc)
    | .ok _, .error _ => isFalse (by intro hc; cases hc)

example : trimSpace (asciiBytes "  a b\t ") = asciiBytes "a b" := by decide
example : trimSpace [0xC2, 0xA0, 97, 0xC2, 0xA0] = [97] := by decide
example : trimSpace [0xE3, 0x80, 0x80, 97] = [97] := by decide
example : trimSpace [0xC2, 97] = [0xC2, 97] := by decide
example : decodeLastRune [0x41, 0xC2, 0xA0] = (0xA0, 2) := by decide
example : splitOnByte 10 (asciiBytes "a\nb\n") = [[97], [98], []] := by decide
example : splitOnByte 10 [] = [[]] := by decide

example : sanitizeMessage (asciiBytes "hello\nSigned-off-by: x\n  \nworld") =
    asciiBytes "hello\nworld" := by decide
example : parseRepositoryOrgName (asciiBytes "https://github.com/org/name") =
    some (asciiBytes "org", asciiBytes "name") := by decide
example : parseRepositoryOrgName (asciiBytes "https://github.com/a/b/c") = none := by decide
example : parseRepositoryOrgName (asciiBytes "https://gitlab.com/a/b") = none := by decide
example : getRepositoriesFromPayload
    ⟨⟨⟨[⟨[1], [(sourceLocationKey, [65])]⟩, ⟨[2], [(sourceLocationKey, [66])]⟩,
       ⟨[3], [(sourceLocationKey, [65])]⟩]⟩⟩⟩ = [[65], [66]] := by decide

theorem splitOnByte_ne_nil (sep : Nat) (l : List Nat) : splitOnByte sep l ≠ [] := by
  cases l with
  | nil => simp [splitOnByte]
  | cons b rest =>
    simp only [splitOnByte]
    split
    · simp
    · split <;> simp

theorem not_mem_of_mem_splitOnByte (sep : Nat) (l p : List Nat)
    (hp : p ∈ splitOnByte sep l) : sep ∉ p := by
  induction l generalizing p with
  | nil =>
    simp only [splitOnByte, List.mem_singleton] at hp
    simp [hp]
  | cons b rest ih =>
    simp only [splitOnByte] at hp
    split at hp
    · rcases List.mem_cons.mp hp with h | h
      · simp [h]
      · exact ih p h
    · rename_i hb
      cases hsr : splitOnByte sep rest with
      | nil => exact absurd hsr (splitOnByte_ne_nil _ _)
      | cons q qs =>
        rw [hsr] at hp
        rcases List.mem_cons.mp hp with h | h
        · subst h
          intro hmem
          rcases List.mem_cons.mp hmem with h | h
          · exact hb (by simp [h])
          · exact ih q (hsr ▸ List.mem_cons_self q qs) h
        · exact ih p (hsr ▸ List.mem_cons_of_mem q h)

theorem splitOnByte_of_not_mem (sep : Nat) (l : List Nat) (h : sep ∉ l) :
    splitOnByte sep l = [l] := by
  induction l with
  | nil => rfl
  | cons b rest ih =>
    have hb : ¬ (b == sep) = true := by
      simp only [beq_iff_eq]
      intro he
      exact h (he ▸ List.mem_cons_self b rest)
    have hrest : sep ∉ rest := fun hm => h (List.mem_cons_of_mem b hm)
    simp only [splitOnByte, if_neg hb, ih hrest]

theorem splitOnByte_append_sep (sep : Nat) (a b : List Nat) (h : sep ∉ a) :
    splitOnByte sep (a ++ sep :: b) = a :: splitOnByte sep b := by
  induction a with
  | nil => simp [splitOnByte]
  | cons x xs ih =>
    have hx : ¬ (x == sep) = true := by
      simp only [beq_iff_eq]
      intro he
      exact h (he ▸ List.mem_cons_self x xs)
    have hxs : sep ∉ xs := fun hm => h (List.mem_cons_of_mem x hm)
    simp only [List.cons_append, splitOnByte, if_neg hx]
    rw [List.append_eq, ih hxs]

theorem joinBytes_splitOnByte (sep : Nat) (l : List Nat) :
    joinBytes sep (splitOnByte sep l) = l := by
  induction l with
  | nil => rfl
  | cons b rest ih =>
    simp only [splitOnByte]
    split
    · rename_i hb
      cases hsr : splitOnByte sep rest with
      | nil => exact absurd hsr (splitOnByte_ne_nil _ _)
      | cons q qs =>
        rw [hsr] at ih
        simp only [joinBytes, List.nil_append]
        rw [← hsr] at ih ⊢
        rw [ih]
        rw [beq_iff_eq.mp hb]
    · cases hsr : splitOnByte sep rest with
      | nil => exact absurd hsr (splitOnByte_ne_nil _ _)
      | cons q qs =>
        rw [hsr] at ih
        cases qs with
        | nil =>
          simp only [joinBytes] at ih ⊢
          rw [ih]
        | cons q2 qs2 =>
          simp only [joinBytes, List.cons_append] at ih ⊢
          rw [ih]

theorem splitOnByte_joinBytes (sep : Nat) (r : List (List Nat)) (hr : r ≠ [])
    (hsep : ∀ x ∈ r, sep ∉ x) : splitOnByte sep (joinBytes sep r) = r := by
  induction r with
  | nil => exact absurd rfl hr
  | cons x xs ih =>
    cases xs with
    | nil =>
      simp only [joinBytes]
      exact splitOnByte_of_not_mem sep x (hsep x (List.mem_cons_self x []))
    | cons y ys =>
      simp only [joinBytes]
      rw [splitOnByte_append_sep sep x _ (hsep x (List.mem_cons_self x (y :: ys)))]
      rw [ih (by simp) (fun z hz => hsep z (List.mem_cons_of_mem x hz))]

theorem containsBytes_iff (pat s : List Nat) :
    containsBytes pat s = true ↔ pat <:+: s := by
  induction s with
  | nil =>
    simp [containsBytes, List.isEmpty_iff]
  | cons b rest ih =>
    simp only [containsBytes, Bool.or_eq_true, List.isPrefixOf_iff_prefix, ih,
      List.infix_cons_iff]

theorem containsBytes_false_of_infix (pat s x : List Nat)
    (hs : containsBytes pat s = false) (hx : x <:+: s) : containsBytes pat x = false := by
  cases hcb : containsBytes pat x with
  | false => rfl
  | true =>
    have : pat <:+: s := ((containsBytes_iff pat x).mp hcb).trans hx
    rw [(containsBytes_iff pat s).mpr this] at hs
    cases hs

theorem decodeRune_size_pos (b0 : Nat) (rest : List Nat) :
    1 ≤ (decodeRune (b0 :: rest)).2 := by
  simp only [decodeRune]
  repeat' split
  all_goals simp

theorem decodeRune_not_space_nil : isSpaceRune (decodeRune []).1 = false := by decide

theorem decodeLastRune_not_space_nil : isSpaceRune (decodeLastRune []).1 = false := by decide

theorem decodeLastRune_reverse_cons (l : List Nat) (b0 : Nat) (rest : List Nat)
    (hrev : l.reverse = b0 :: rest) : decodeLastRune l = decodeLastAux l b0 rest := by
  unfold decodeLastRune
  rw [hrev]

theorem eq_nil_of_reverse_nil (l : List Nat) (hrev : l.reverse = []) : l = [] := by
  simpa using congrArg List.reverse hrev

theorem decodeLastAux_size_pos (l : List Nat) (b0 : Nat) (rest : List Nat) :
    1 ≤ (decodeLastAux l b0 rest).2 := by
  unfold decodeLastAux
  by_cases h0 : b0 < 0x80
  · rw [if_pos h0]
  · rw [if_neg h0]
    cases hfs : findRuneStart (rest.take 3) with
    | none => exact Nat.le_refl 1
    | some k =>
      show 1 ≤ (if (decodeRune (l.drop (l.length - (k + 2)))).2 == k + 2 then
          decodeRune (l.drop (l.length - (k + 2))) else (runeError, 1)).2
      by_cases hsz : ((decodeRune (l.drop (l.length - (k + 2)))).2 == k + 2) = true
      · rw [if_pos hsz, eq_of_beq hsz]
        omega
      · rw [if_neg hsz]

theorem decodeLastRune_size_pos (l : List Nat)
    (h : isSpaceRune (decodeLastRune l).1 = true) : 1 ≤ (decodeLastRune l).2 := by
  rcases hrev : l.reverse with _ | ⟨b0, rest⟩
  · have hl := eq_nil_of_reverse_nil l hrev
    subst hl
    exact absurd h (by decide)
  · rw [decodeLastRune_reverse_cons l b0 rest hrev]
    exact decodeLastAux_size_pos l b0 rest

theorem decodeLastRune_space_ne_nil (l : List Nat)
    (h : isSpaceRune (decodeLastRune l).1 = true) : l ≠ [] := by
  intro he
  subst he
  exact absurd h (by decide)

theorem trimLeftGo_suffix (fuel : Nat) (l : List Nat) : trimLeftGo fuel l <:+ l := by
  induction fuel generalizing l with
  | zero => exact List.suffix_refl l
  | succ fuel ih =>
    simp only [trimLeftGo]
    split
    · exact (ih _).trans (List.drop_suffix _ _)
    · exact List.suffix_refl l

theorem trimRightGo_isPrefix (fuel : Nat) (l : List Nat) : trimRightGo fuel l <+: l := by
  induction fuel generalizing l with
  | zero => exact List.prefix_refl l
  | succ fuel ih =>
    simp only [trimRightGo]
    split
    · exact (ih _).trans ⟨l.drop (l.length - (decodeLastRune l).2), List.take_append_drop _ _⟩
    · exact List.prefix_refl l

theorem trimLeftGo_stopped (fuel : Nat) (l : List Nat) (h : l.length ≤ fuel) :
    isSpaceRune (decodeRune (trimLeftGo fuel l)).1 = false := by
  induction fuel generalizing l with
  | zero =>
    have hnil : l = [] := List.eq_nil_of_length_eq_zero (Nat.le_zero.mp h)
    subst hnil
    decide
  | succ fuel ih =>
    simp only [trimLeftGo]
    split
    · rename_i hsp
      have hl : l ≠ [] := by
        intro he
        subst he
        exact absurd hsp (by decide)
      have h1 : 1 ≤ (decodeRune l).2 := by
        cases l with
        | nil => exact absurd rfl hl
        | cons b0 rest => exact decodeRune_size_pos b0 rest
      apply ih
      rw [List.length_drop]
      have : 1 ≤ l.length := by
        cases l with
        | nil => exact absurd rfl hl
        | cons b0 rest => simp
      omega
    · rename_i hsp
      exact eq_false_of_ne_true hsp

theorem trimLeftGo_of_stopped (l : List Nat) (h : isSpaceRune (decodeRune l).1 = false)
    (fuel : Nat) : trimLeftGo fuel l = l := by
  cases fuel with
  | zero => rfl
  | succ fuel => simp [trimLeftGo, h]

theorem trimRightGo_stopped (fuel : Nat) (l : List Nat) (h : l.length ≤ fuel) :
    isSpaceRune (decodeLastRune (trimRightGo fuel l)).1 = false := by
  induction fuel generalizing l with
  | zero =>
    have hnil : l = [] := List.eq_nil_of_length_eq_zero (Nat.le_zero.mp h)
    subst hnil
    decide
  | succ fuel ih =>
    simp only [trimRightGo]
    split
    · rename_i hsp
      have hl : l ≠ [] := decodeLastRune_space_ne_nil l hsp
      have h1 : 1 ≤ (decodeLastRune l).2 := decodeLastRune_size_pos l hsp
      apply ih
      rw [List.length_take]
      have : 1 ≤ l.length := by
        cases l with
        | nil => exact absurd rfl hl
        | cons b0 rest => simp
      omega
    · rename_i hsp
      exact eq_false_of_ne_true hsp

theorem trimRightGo_of_stopped (l : List Nat)
    (h : isSpaceRune (decodeLastRune l).1 = false) (fuel : Nat) : trimRightGo fuel l = l := by
  cases fuel with
  | zero => rfl
  | succ fuel => simp [trimRightGo, h]

theorem decodeRune_append (p t : List Nat) (h : isSpaceRune (decodeRune p).1 = true) :
    decodeRune (p ++ t) = decodeRune p := by
  rcases p with _ | ⟨b0, _ | ⟨b1, _ | ⟨b2, _ | ⟨b3, r⟩⟩⟩⟩
  · exact absurd h (by decide)
  all_goals
    revert h
    simp only [decodeRune, List.cons_append, List.nil_append]
    split_ifs <;> intro h <;> first | rfl | trivial

theorem accept2lo_ge (b0 : Nat) : 0x80 ≤ accept2lo b0 := by
  unfold accept2lo
  split_ifs <;> omega

theorem trimRightGo_keeps_left_stopped (fuel : Nat) (z : List Nat)
    (h : isSpaceRune (decodeRune z).1 = false) :
    isSpaceRune (decodeRune (trimRightGo fuel z)).1 = false := by
  obtain ⟨t, ht⟩ := trimRightGo_isPrefix fuel z
  cases hsp : isSpaceRune (decodeRune (trimRightGo fuel z)).1 with
  | false => rfl
  | true =>
    rw [← ht, decodeRune_append _ t hsp, hsp] at h
    cases h

theorem trimSpace_idem (l : List Nat) : trimSpace (trimSpace l) = trimSpace l := by
  have hz := trimLeftGo_stopped l.length l (Nat.le_refl _)
  have hy := trimRightGo_keeps_left_stopped (trimLeftGo l.length l).length
    (trimLeftGo l.length l) hz
  have hylast := trimRightGo_stopped (trimLeftGo l.length l).length
    (trimLeftGo l.length l) (Nat.le_refl _)
  unfold trimSpace trimRightSpace trimLeftSpace
  rw [trimLeftGo_of_stopped _ hy, trimRightGo_of_stopped _ hylast]

theorem trimSpace_isInfix (l : List Nat) : trimSpace l <:+: l :=
  ((trimRightGo_isPrefix _ _).isInfix).trans ((trimLeftGo_suffix _ _).isInfix)

theorem trimSpace_length_le (l : List Nat) : (trimSpace l).length ≤ l.length :=
  (trimSpace_isInfix l).length_le

theorem decodeRune_space_mem (p : List Nat) (h : isSpaceRune (decodeRune p).1 = true)
    (b : Nat) (hb : b ∈ p.take (decodeRune p).2) : isSpaceRune b = true ∨ 0x80 ≤ b := by
  rcases p with _ | ⟨b0, _ | ⟨b1, _ | ⟨b2, _ | ⟨b3, r⟩⟩⟩⟩
  · exact absurd h (by decide)
  all_goals
    revert h hb
    simp only [decodeRune]
    split_ifs <;> intro h hb <;>
      first
        | exact absurd h (by decide)
        | (have hlo := accept2lo_ge b0
           simp only [Bool.or_eq_true, decide_eq_true_eq, not_or, Nat.not_lt] at *
           simp at hb
           rcases hb with rfl | rfl | rfl | rfl <;>
             first | (left; exact h) | (right; omega))

theorem decodeLastAux_space_mem (l : List Nat) (b0 : Nat) (rest : List Nat)
    (hrev : l.reverse = b0 :: rest)
    (h : isSpaceRune (decodeLastAux l b0 rest).1 = true)
    (b : Nat) (hb : b ∈ l.drop (l.length - (decodeLastAux l b0 rest).2)) :
    isSpaceRune b = true ∨ 0x80 ≤ b := by
  by_cases h0 : b0 < 0x80
  · have hd : decodeLastAux l b0 rest = (b0, 1) := by
      unfold decodeLastAux
      rw [if_pos h0]
    rw [hd] at h hb
    have hl : l = rest.reverse ++ [b0] := by
      have := congrArg List.reverse hrev
      simpa using this
    have hb2 : b ∈ l.drop (l.length - 1) := hb
    rw [hl] at hb2
    rw [show (rest.reverse ++ [b0]).length - 1 = rest.reverse.length by simp,
      List.drop_left] at hb2
    have hbb : b = b0 := by simpa using hb2
    subst hbb
    exact Or.inl h
  · cases hfs : findRuneStart (rest.take 3) with
    | none =>
      have hd : decodeLastAux l b0 rest = (runeError, 1) := by
        unfold decodeLastAux
        rw [if_neg h0, hfs]
      rw [hd] at h
      exact absurd h (by decide)
    | some k =>
      by_cases hsz : ((decodeRune (l.drop (l.length - (k + 2)))).2 == k + 2) = true
      · have hd : decodeLastAux l b0 rest = decodeRune (l.drop (l.length - (k + 2))) := by
          unfold decodeLastAux
          rw [if_neg h0, hfs]
          show (if (decodeRune (l.drop (l.length - (k + 2)))).2 == k + 2 then
              decodeRune (l.drop (l.length - (k + 2))) else (runeError, 1)) = _
          rw [if_pos hsz]
        rw [hd] at h hb
        rw [eq_of_beq hsz] at hb
        apply decodeRune_space_mem (l.drop (l.length - (k + 2))) h b
        rw [eq_of_beq hsz]
        rw [List.take_of_length_le]
        · exact hb
        · rw [List.length_drop]
          omega
      · have hd : decodeLastAux l b0 rest = (runeError, 1) := by
          unfold decodeLastAux
          rw [if_neg h0, hfs]
          show (if (decodeRune (l.drop (l.length - (k + 2)))).2 == k + 2 then
              decodeRune (l.drop (l.length - (k + 2))) else (runeError, 1)) = _
          rw [if_neg hsz]
        rw [hd] at h
        exact absurd h (by decide)

theorem trimLeftGo_mem_or (fuel : Nat) (l : List Nat) (b : Nat) (hb : b ∈ l) :
    b ∈ trimLeftGo fuel l ∨ (isSpaceRune b = true ∨ 0x80 ≤ b) := by
  induction fuel generalizing l with
  | zero => exact Or.inl hb
  | succ fuel ih =>
    simp only [trimLeftGo]
    split
    · rename_i hsp
      rw [← List.take_append_drop (decodeRune l).2 l] at hb
      rcases List.mem_append.mp hb with hmem | hmem
      · exact Or.inr (decodeRune_space_mem l hsp b hmem)
      · exact ih _ hmem
    · exact Or.inl hb

theorem trimRightGo_mem_or (fuel : Nat) (l : List Nat) (b : Nat) (hb : b ∈ l) :
    b ∈ trimRightGo fuel l ∨ (isSpaceRune b = true ∨ 0x80 ≤ b) := by
  induction fuel generalizing l with
  | zero => exact Or.inl hb
  | succ fuel ih =>
    simp only [trimRightGo]
    split
    · rename_i hsp
      rw [← List.take_append_drop (l.length - (decodeLastRune l).2) l] at hb
      rcases List.mem_append.mp hb with hmem | hmem
      · exact ih _ hmem
      · rcases hrev : l.reverse with _ | ⟨b0, rest⟩
        · have hl := eq_nil_of_reverse_nil l hrev
          subst hl
          simp at hmem
        · have hdl := decodeLastRune_reverse_cons l b0 rest hrev
          rw [hdl] at hsp hmem
          exact Or.inr (decodeLastAux_space_mem l b0 rest hrev hsp b hmem)
    · exact Or.inl hb

theorem trimSpace_mem (l : List Nat) (b : Nat) (hb : b ∈ l)
    (hnot : ¬(isSpaceRune b = true ∨ 0x80 ≤ b)) : b ∈ trimSpace l := by
  unfold trimSpace trimRightSpace trimLeftSpace
  rcases trimLeftGo_mem_or l.length l b hb with h | h
  · rcases trimRightGo_mem_or (trimLeftGo l.length l).length (trimLeftGo l.length l) b h with
      h2 | h2
    · exact h2
    · exact absurd h2 hnot
  · exact absurd h hnot

theorem trimSpace_append_marker_ne_nil (x : List Nat) :
    trimSpace (x ++ markerBytes) ≠ [] := by
  have h46 : (46 : Nat) ∈ x ++ markerBytes := List.mem_append_right x (by decide)
  have hmem := trimSpace_mem (x ++ markerBytes) 46 h46 (by decide)
  intro he
  rw [he] at hmem
  cases hmem

theorem sob_isPrefixOf_append_marker (s : List Nat)
    (h : sobBytes.isPrefixOf s = false) :
    sobBytes.isPrefixOf (s ++ markerBytes) = false := by
  cases hp : sobBytes.isPrefixOf (s ++ markerBytes) with
  | false => rfl
  | true =>
    exfalso
    have hpre : sobBytes <+: s ++ markerBytes := List.isPrefixOf_iff_prefix.mp hp
    by_cases hlen : sobBytes.length ≤ s.length
    · have hps : sobBytes <+: s := by
        rw [List.prefix_iff_eq_take] at hpre ⊢
        rw [List.take_append_eq_append_take,
          show sobBytes.length - s.length = 0 by omega, List.take_zero,
          List.append_nil] at hpre
        exact hpre
      rw [List.isPrefixOf_iff_prefix.mpr hps] at h
      cases h
    · rw [List.prefix_iff_eq_take, List.take_append_eq_append_take,
        List.take_of_length_le (by omega)] at hpre
      have h32 : (32 : Nat) ∈ sobBytes := by
        rw [hpre]
        apply List.mem_append_right
        rcases hk : sobBytes.length - s.length with _ | k
        · exfalso
          have : sobBytes.length = 13 := by decide
          omega
        · rw [show markerBytes = 32 :: [46, 46, 46] by decide, List.take_succ_cons]
          exact List.mem_cons_self _ _
      exact absurd h32 (by decide)

theorem containsBytes_append_marker (a : List Nat)
    (h : containsBytes sobBytes a = false) :
    containsBytes sobBytes (a ++ markerBytes) = false := by
  induction a with
  | nil =>
    simp only [List.nil_append]
    decide
  | cons x xs ih =>
    simp only [containsBytes, Bool.or_eq_false_iff] at h
    simp only [List.cons_append, containsBytes, Bool.or_eq_false_iff]
    constructor
    · have := sob_isPrefixOf_append_marker (x :: xs) h.1
      rw [List.cons_append] at this
      exact this
    · exact ih h.2

theorem sanitizeLine_some (l x : List Nat) (hx : sanitizeLine l = some x) :
    x.length ≤ 84 ∧ containsBytes sobBytes x = false ∧ trimSpace x = x ∧ x ≠ [] := by
  unfold sanitizeLine at hx
  by_cases hdrop : (containsBytes sobBytes l || (trimSpace l).length == 0) = true
  · rw [if_pos hdrop] at hx
    cases hx
  · rw [if_neg hdrop] at hx
    simp only [Bool.or_eq_true, beq_iff_eq, not_or] at hdrop
    obtain ⟨hsob, hlen0⟩ := hdrop
    have hsobF : containsBytes sobBytes l = false := eq_false_of_ne_true hsob
    have hlenne : trimSpace l ≠ [] := by
      intro he
      apply hlen0
      rw [he]
      rfl
    by_cases hgt : 80 < l.length
    · rw [if_pos hgt] at hx
      injection hx with hx
      subst hx
      refine ⟨?_, ?_, trimSpace_idem _, trimSpace_append_marker_ne_nil _⟩
      · calc (trimSpace (l.take 80 ++ markerBytes)).length
            ≤ (l.take 80 ++ markerBytes).length := trimSpace_length_le _
          _ = (l.take 80).length + markerBytes.length := List.length_append _ _
          _ ≤ 80 + 4 := by
              have h1 : (l.take 80).length ≤ 80 := by
                rw [List.length_take]
                omega
              have h2 : markerBytes.length = 4 := by decide
              omega
          _ = 84 := rfl
      · apply containsBytes_false_of_infix _ _ _ ?_ (trimSpace_isInfix _)
        apply containsBytes_append_marker
        exact containsBytes_false_of_infix _ _ _ hsobF
          (List.IsPrefix.isInfix ⟨l.drop 80, List.take_append_drop 80 l⟩)
    · rw [if_neg hgt] at hx
      injection hx with hx
      subst hx
      refine ⟨?_, ?_, trimSpace_idem _, hlenne⟩
      · exact le_trans (trimSpace_length_le l) (by omega)
      · exact containsBytes_false_of_infix _ _ _ hsobF (trimSpace_isInfix l)

theorem sanitizeLine_no_newline (l x : List Nat) (hl : (10 : Nat) ∉ l)
    (hx : sanitizeLine l = some x) : (10 : Nat) ∉ x := by
  unfold sanitizeLine at hx
  by_cases hdrop : (containsBytes sobBytes l || (trimSpace l).length == 0) = true
  · rw [if_pos hdrop] at hx
    cases hx
  · rw [if_neg hdrop] at hx
    by_cases hgt : 80 < l.length
    · rw [if_pos hgt] at hx
      injection hx with hx
      subst hx
      intro hmem
      have := (trimSpace_isInfix _).subset hmem
      rcases List.mem_append.mp this with hm | hm
      · exact hl (List.take_subset 80 l hm)
      · exact absurd hm (by decide)
    · rw [if_neg hgt] at hx
      injection hx with hx
      subst hx
      intro hmem
      exact hl ((trimSpace_isInfix l).subset hmem)

theorem filterMap_sanitizeLine_eq_self (lines : List (List Nat))
    (h : ∀ l ∈ lines, sanitizeLine l = some l) :
    lines.filterMap sanitizeLine = lines := by
  induction lines with
  | nil => rfl
  | cons x xs ih =>
    rw [List.filterMap_cons, h x (List.mem_cons_self x xs),
      ih (fun l hl => h l (List.mem_cons_of_mem x hl))]

/-- C5 (amended): every line of a sanitized message is at most 84 bytes
long and contains no occurrence of `"Signed-off-by"`; and unless the
sanitized message is the empty string (in which case its single line is the
empty, vacuously all-whitespace line), no line is composed only of
whitespace (its `TrimSpace` is never empty). -/
theorem sanitizeMessage_line_properties (msg line : List Nat)
    (hline : line ∈ splitOnByte 10 (sanitizeMessage msg)) :
    line.length ≤ 84 ∧ containsBytes sobBytes line = false ∧
      (sanitizeMessage msg ≠ [] → trimSpace line ≠ []) := by
  unfold sanitizeMessage at hline ⊢
  cases hr : (splitOnByte 10 msg).filterMap sanitizeLine with
  | nil =>
    rw [hr] at hline
    have hl : line = [] := by
      simpa [joinBytes, splitOnByte] using hline
    subst hl
    refine ⟨by decide, by decide, fun hne => absurd rfl hne⟩
  | cons y ys =>
    rw [hr] at hline
    have hprops : ∀ x ∈ y :: ys, x.length ≤ 84 ∧ containsBytes sobBytes x = false ∧
        trimSpace x = x ∧ x ≠ [] ∧ (10 : Nat) ∉ x := by
      intro x hx
      rw [← hr] at hx
      obtain ⟨l, hl, hsome⟩ := List.mem_filterMap.mp hx
      have h1 := sanitizeLine_some l x hsome
      have h2 := sanitizeLine_no_newline l x (not_mem_of_mem_splitOnByte 10 msg l hl) hsome
      exact ⟨h1.1, h1.2.1, h1.2.2.1, h1.2.2.2, h2⟩
    have hsplit : splitOnByte 10 (joinBytes 10 (y :: ys)) = y :: ys :=
      splitOnByte_joinBytes 10 (y :: ys) (by simp) (fun x hx => (hprops x hx).2.2.2.2)
    rw [hsplit] at hline
    obtain ⟨hlen, hsob, htrim, hne, _⟩ := hprops line hline
    refine ⟨hlen, hsob, fun _ => ?_⟩
    rw [htrim]
    exact hne

/-- C5 counterexample to the claim as stated: on the input
`"Signed-off-by"` the sanitized message is the empty string, whose single
line (Go's `strings.Split` of `""` yields one empty part) is composed only
of whitespace by the code's own test (`len(strings.TrimSpace(l)) == 0`). -/
theorem sanitizeMessage_empty_line_counterexample :
    sanitizeMessage sobBytes = [] ∧
      [] ∈ splitOnByte 10 (sanitizeMessage sobBytes) ∧
      trimSpace ([] : List Nat) = [] := by
  exact ⟨by decide, by decide, rfl⟩

/-- C5 witness: the amended statement applied to the concrete message
`"hi\nthere"` and its first sanitized line `"hi"`. -/
theorem sanitizeMessage_line_properties_witness :
    (asciiBytes "hi" ∈ splitOnByte 10 (sanitizeMessage (asciiBytes "hi\nthere"))) ∧
      ((asciiBytes "hi").length ≤ 84 ∧
        containsBytes sobBytes (asciiBytes "hi") = false ∧
        (sanitizeMessage (asciiBytes "hi\nthere") ≠ [] → trimSpace (asciiBytes "hi") ≠ [])) :=
  ⟨by decide, sanitizeMessage_line_properties (asciiBytes "hi\nthere") (asciiBytes "hi")
    (by decide)⟩

/-- C6: a message all of whose lines contain no `"Signed-off-by"`, are not
all-whitespace, are at most 80 bytes long and carry no surrounding
whitespace is returned unchanged by `sanitizeMessage`. -/
theorem sanitizeMessage_idempotent_on_sanitized (msg : List Nat)
    (h : ∀ line ∈ splitOnByte 10 msg, containsBytes sobBytes line = false ∧
      trimSpace line ≠ [] ∧ line.length ≤ 80 ∧ trimSpace line = line) :
    sanitizeMessage msg = msg := by
  unfold sanitizeMessage
  have hlines : ∀ l ∈ splitOnByte 10 msg, sanitizeLine l = some l := by
    intro l hl
    obtain ⟨hsob, hne, hlen, htrim⟩ := h l hl
    have hc1 : ¬ (containsBytes sobBytes l || (trimSpace l).length == 0) = true := by
      rw [hsob, Bool.false_or, beq_iff_eq]
      intro hzero
      exact hne (List.eq_nil_of_length_eq_zero hzero)
    have hc2 : ¬ 80 < l.length := by omega
    unfold sanitizeLine
    rw [if_neg hc1, if_neg hc2, htrim]
  rw [filterMap_sanitizeLine_eq_self _ hlines, joinBytes_splitOnByte]

/-- C6 witness: the idempotence statement applied to the concrete,
already-sanitized message `"hello\nworld"`. -/
theorem sanitizeMessage_idempotent_witness :
    (∀ line ∈ splitOnByte 10 (asciiBytes "hello\nworld"),
        containsBytes sobBytes line = false ∧ trimSpace line ≠ [] ∧
        line.length ≤ 80 ∧ trimSpace line = line) ∧
      sanitizeMessage (asciiBytes "hello\nworld") = asciiBytes "hello\nworld" :=
  ⟨by decide, sanitizeMessage_idempotent_on_sanitized (asciiBytes "hello\nworld") (by decide)⟩

/-- C10: a kept single-line message longer than 80 bytes is cut at byte
index 80 — `l[0:80]` in Go slices bytes, not characters — the 4-byte marker
`" ..."` is appended, and the result is trimmed of surrounding whitespace. -/
theorem sanitizeMessage_truncates_by_byte (l : List Nat)
    (hnl : (10 : Nat) ∉ l) (hsob : containsBytes sobBytes l = false)
    (hws : trimSpace l ≠ []) (hlen : 80 < l.length) :
    sanitizeMessage l = trimSpace (l.take 80 ++ markerBytes) := by
  unfold sanitizeMessage
  rw [splitOnByte_of_not_mem 10 l hnl]
  have hline : sanitizeLine l = some (trimSpace (l.take 80 ++ markerBytes)) := by
    have hc1 : ¬ (containsBytes sobBytes l || (trimSpace l).length == 0) = true := by
      rw [hsob, Bool.false_or, beq_iff_eq]
      intro hzero
      exact hws (List.eq_nil_of_length_eq_zero hzero)
    unfold sanitizeLine
    rw [if_neg hc1, if_pos hlen]
  rw [List.filterMap_cons, hline]
  rfl

/-- C10 witness: 79 `'a'` bytes followed by the two-byte UTF-8 character
`é` (`0xC3 0xA9`) make an 81-byte line; the cut keeps exactly the first 80
bytes, splitting the `é` and leaving its dangling lead byte `0xC3`. -/
theorem sanitizeMessage_truncates_by_byte_witness :
    ((10 : Nat) ∉ List.replicate 79 97 ++ [195, 169] ∧
        containsBytes sobBytes (List.replicate 79 97 ++ [195, 169]) = false ∧
        trimSpace (List.replicate 79 97 ++ [195, 169]) ≠ [] ∧
        80 < (List.replicate 79 97 ++ [195, 169]).length) ∧
      sanitizeMessage (List.replicate 79 97 ++ [195, 169]) =
        trimSpace ((List.replicate 79 97 ++ [195, 169]).take 80 ++ markerBytes) ∧
      sanitizeMessage (List.replicate 79 97 ++ [195, 169]) =
        List.replicate 79 97 ++ 195 :: markerBytes :=
  ⟨⟨by decide, by decide, by decide, by decide⟩,
    sanitizeMessage_truncates_by_byte (List.replicate 79 97 ++ [195, 169])
      (by decide) (by decide) (by decide) (by decide),
    by decide⟩

/-- C4 (amended): the URL parser succeeds exactly when the reference has
the `https://github.com/` prefix and the remainder splits on `/` into
exactly two segments — which, contrary to the claim, may be empty; every
other input yields `none` (the function is total, so no other outcome
exists). -/
theorem parseRepositoryOrgName_isSome_iff (repository : List Nat) :
    (parseRepositoryOrgName repository).isSome = true ↔
      (hostBytes.isPrefixOf repository = true ∧
        (splitOnByte 47 (repository.drop hostBytes.length)).length = 2) := by
  unfold parseRepositoryOrgName
  by_cases hp : hostBytes.isPrefixOf repository = true
  · rw [if_pos hp]
    rcases hsp : splitOnByte 47 (repository.drop hostBytes.length) with
      _ | ⟨a, _ | ⟨b, _ | ⟨c, rest⟩⟩⟩ <;> simp [hp, hsp]
  · rw [if_neg hp]
    simp [hp]

/-- C4 counterexample to the claim as stated: `"https://github.com/a/"`
splits into the segments `["a", ""]` after the prefix — the name segment is
empty — yet the parser succeeds, returning organization `"a"` and the empty
name, where the claim requires the not-parsed result for any input without
two non-empty segments. -/
theorem parseRepositoryOrgName_empty_segment_counterexample :
    parseRepositoryOrgName (asciiBytes "https://github.com/a/") =
        some (asciiBytes "a", []) ∧
      splitOnByte 47 ((asciiBytes "https://github.com/a/").drop hostBytes.length) =
        [[97], []] :=
  ⟨by decide, by decide⟩

theorem foldl_addRepository (tags : List Tag) (acc seen : List (List Nat))
    (hequiv : ∀ v, v ∈ acc ↔ v ∈ seen) :
    tags.foldl addRepository acc =
      acc ++ dedupFirstSeen (tags.filterMap (fun t =>
        match t.annotations.lookup sourceLocationKey with
        | none => none
        | some v => if v.length == 0 then none else some v)) seen := by
  induction tags generalizing acc seen with
  | nil => simp [dedupFirstSeen]
  | cons t ts ih =>
    simp only [List.foldl_cons, List.filterMap_cons]
    cases hlk : t.annotations.lookup sourceLocationKey with
    | none =>
      simp only [addRepository, hlk]
      exact ih acc seen hequiv
    | some v =>
      simp only [addRepository, hlk]
      by_cases hz : (v.length == 0) = true
      · rw [if_pos hz, if_pos hz]
        exact ih acc seen hequiv
      · rw [if_neg hz, if_neg hz]
        by_cases hmem : v ∈ acc
        · rw [if_pos (show (acc.contains v) = true from List.elem_iff.mpr hmem)]
          simp only [dedupFirstSeen]
          rw [if_pos (show (seen.contains v) = true from
            List.elem_iff.mpr ((hequiv v).mp hmem))]
          exact ih acc seen hequiv
        · rw [if_neg (show ¬ (acc.contains v) = true from
            fun hc => hmem (List.elem_iff.mp hc))]
          simp only [dedupFirstSeen]
          rw [if_neg (show ¬ (seen.contains v) = true from
            fun hc => hmem ((hequiv v).mpr (List.elem_iff.mp hc)))]
          have hequiv2 : ∀ w, w ∈ acc ++ [v] ↔ w ∈ v :: seen := by
            intro w
            simp only [List.mem_append, List.mem_cons, List.not_mem_nil, or_false]
            constructor
            · rintro (hm | hm)
              · exact Or.inr ((hequiv w).mp hm)
              · exact Or.inl hm
            · rintro (hm | hm)
              · exact Or.inr hm
              · exact Or.inl ((hequiv w).mpr hm)
          rw [ih (acc ++ [v]) (v :: seen) hequiv2]
          simp

/-- C7: for every parsed release payload, the extraction returns exactly
the non-empty `io.openshift.build.source-location` annotation values of
the tags, in order of first appearance, with duplicates by exact equality
dropped — the first-occurrence de-duplication of `specSourceLocations`. -/
theorem getRepositoriesFromPayload_spec (release : Release) :
    getRepositoriesFromPayload release =
      dedupFirstSeen (specSourceLocations release) [] := by
  unfold getRepositoriesFromPayload specSourceLocations
  rw [foldl_addRepository release.refs.spec.tags [] [] (fun v => Iff.rfl)]
  rfl


theorem repositoryTask_error_of_unparsable (client : GithubClient)
    (humanizeTime : Int → List Nat) (now : Int) (options : ProcessOptions)
    (repository : List Nat) (h : parseRepositoryOrgName repository = none) :
    repositoryTask client humanizeTime now options repository =
      .error (.unparsableRepository repository) := by
  unfold repositoryTask getRepositoryChanges
  rw [h]

theorem getRepositoryChanges_parsed (client : GithubClient) (now : Int)
    (repository : List Nat) (options : ProcessOptions) (organization name : List Nat)
    (hp : parseRepositoryOrgName repository = some (organization, name)) :
    getRepositoryChanges client now repository options =
      match client organization name
          { sha := options.branchName, since := now - options.since } with
      | .error _ => .ok []
      | .ok commits => .ok commits := by
  unfold getRepositoryChanges
  rw [hp]

theorem getRepositoryChanges_client_error (client : GithubClient) (now : Int)
    (repository : List Nat) (options : ProcessOptions) (organization name e : List Nat)
    (hp : parseRepositoryOrgName repository = some (organization, name))
    (herr : client organization name
        { sha := options.branchName, since := now - options.since } = .error e) :
    getRepositoryChanges client now repository options = .ok [] := by
  rw [getRepositoryChanges_parsed client now repository options organization name hp, herr]

theorem getRepositoryChanges_client_ok (client : GithubClient) (now : Int)
    (repository : List Nat) (options : ProcessOptions) (organization name : List Nat)
    (commits : List RepositoryCommit)
    (hp : parseRepositoryOrgName repository = some (organization, name))
    (hok : client organization name
        { sha := options.branchName, since := now - options.since } = .ok commits) :
    getRepositoryChanges client now repository options = .ok commits := by
  rw [getRepositoryChanges_parsed client now repository options organization name hp, hok]

theorem repositoryTask_no_error (client : GithubClient) (humanizeTime : Int → List Nat)
    (now : Int) (options : ProcessOptions) (repository : List Nat)
    (h : (parseRepositoryOrgName repository).isSome = true) :
    exceptError? (repositoryTask client humanizeTime now options repository) = none := by
  obtain ⟨pr, hp⟩ := Option.isSome_iff_exists.mp h
  rcases pr with ⟨organization, name⟩
  unfold repositoryTask
  cases hc : client organization name
      { sha := options.branchName, since := now - options.since } with
  | error e =>
    rw [getRepositoryChanges_client_error client now repository options organization name
      e hp hc]
    rfl
  | ok commits =>
    rw [getRepositoryChanges_client_ok client now repository options organization name
      commits hp hc]
    rfl

theorem taskResults_findSome?_none (client : GithubClient) (humanizeTime : Int → List Nat)
    (tnow : Nat → Int) (options : ProcessOptions) (repositories : List (List Nat))
    (hparse : ∀ r ∈ repositories, (parseRepositoryOrgName r).isSome = true) :
    (taskResults client humanizeTime tnow options repositories).findSome? exceptError? =
      none := by
  apply List.findSome?_eq_none_iff.mpr
  intro x hx
  unfold taskResults at hx
  obtain ⟨i, hirange, hxi⟩ := List.mem_map.mp hx
  have hi : i < repositories.length := List.mem_range.mp hirange
  subst hxi
  apply repositoryTask_no_error
  apply hparse
  rw [List.getD_eq_getElem repositories [] hi]
  exact List.getElem_mem hi

theorem taskResults_getD (client : GithubClient) (humanizeTime : Int → List Nat)
    (tnow : Nat → Int) (options : ProcessOptions) (repositories : List (List Nat))
    (i : Nat) (d : Except FetchError (List Change)) (hi : i < repositories.length) :
    (taskResults client humanizeTime tnow options repositories).getD i d =
      repositoryTask client humanizeTime (tnow i) options (repositories.getD i []) := by
  unfold taskResults
  rw [List.getD_eq_getElem _ d (by simpa using hi), List.getElem_map, List.getElem_range]

theorem processRepositories_ok (client : GithubClient) (humanizeTime : Int → List Nat)
    (tnow : Nat → Int) (options : ProcessOptions) (repositories : List (List Nat))
    (order : List Nat)
    (hparse : ∀ r ∈ repositories, (parseRepositoryOrgName r).isSome = true) :
    processRepositories client humanizeTime tnow options repositories order =
      .ok (sortChanges (order.map (fun i =>
        okChanges ((taskResults client humanizeTime tnow options repositories).getD i
          (.ok [])))).flatten) := by
  unfold processRepositories
  rw [taskResults_findSome?_none client humanizeTime tnow options repositories hparse]

theorem sortChanges_perm (l : List Change) : (sortChanges l).Perm l :=
  List.mergeSort_perm l _

theorem sortChanges_sorted (l : List Change) :
    (sortChanges l).Pairwise (fun a b => a.originalTime ≤ b.originalTime) := by
  have h := @List.sorted_mergeSort Change (fun a b : Change => ! changeLess b a)
    (fun a b c hab hbc => by
      simp only [changeLess, Bool.not_eq_true', decide_eq_false_iff_not, not_lt] at *
      omega)
    (fun a b => by
      simp only [changeLess, Bool.or_eq_true, Bool.not_eq_true', decide_eq_false_iff_not,
        not_lt]
      omega)
    l
  refine h.imp ?_
  intro a b hab
  simp only [changeLess, Bool.not_eq_true', decide_eq_false_iff_not, not_lt] at hab
  exact hab

theorem range_map_okChanges (client : GithubClient) (humanizeTime : Int → List Nat)
    (tnow : Nat → Int) (options : ProcessOptions) (repositories : List (List Nat)) :
    (List.range repositories.length).map (fun i =>
        okChanges ((taskResults client humanizeTime tnow options repositories).getD i
          (.ok []))) =
      perRepositoryChanges client humanizeTime tnow options repositories := by
  unfold perRepositoryChanges taskResults
  rw [List.map_map]
  apply List.map_congr_left
  intro i hirange
  have hi : i < repositories.length := List.mem_range.mp hirange
  rw [show (List.range repositories.length).map (fun i =>
      repositoryTask client humanizeTime (tnow i) options (repositories.getD i [])) =
      taskResults client humanizeTime tnow options repositories from rfl]
  rw [taskResults_getD client humanizeTime tnow options repositories i _ hi]
  rfl

theorem order_flatten_perm (client : GithubClient) (humanizeTime : Int → List Nat)
    (tnow : Nat → Int) (options : ProcessOptions) (repositories : List (List Nat))
    (order : List Nat) (horder : order.Perm (List.range repositories.length)) :
    ((order.map (fun i =>
        okChanges ((taskResults client humanizeTime tnow options repositories).getD i
          (.ok [])))).flatten).Perm
      (perRepositoryChanges client humanizeTime tnow options repositories).flatten := by
  have h1 := (horder.map (fun i =>
    okChanges ((taskResults client humanizeTime tnow options repositories).getD i
      (.ok [])))).flatten
  rw [range_map_okChanges] at h1
  exact h1

theorem perRepositoryChanges_getD (client : GithubClient) (humanizeTime : Int → List Nat)
    (tnow : Nat → Int) (options : ProcessOptions) (repositories : List (List Nat))
    (i : Nat) (hi : i < repositories.length) :
    (perRepositoryChanges client humanizeTime tnow options repositories).getD i [] =
      okChanges (repositoryTask client humanizeTime (tnow i) options
        (repositories.getD i [])) := by
  unfold perRepositoryChanges taskResults
  rw [List.getD_eq_getElem _ [] (by simpa using hi), List.getElem_map, List.getElem_map,
    List.getElem_range]

/-- C1 (amended): a repository reference that cannot be decomposed into
(organization, name) makes its task return an error, and
`processRepositories` hands that error to its caller: the aggregate
operation fails instead of absorbing the parse failure (only transport/API
errors are absorbed, inside `getRepositoryChanges`). -/
theorem processRepositories_error_of_unparsable (client : GithubClient)
    (humanizeTime : Int → List Nat) (tnow : Nat → Int) (options : ProcessOptions)
    (repositories : List (List Nat)) (order : List Nat)
    (h : ∃ r ∈ repositories, parseRepositoryOrgName r = none) :
    ∃ e, processRepositories client humanizeTime tnow options repositories order =
      .error e := by
  obtain ⟨r, hr, hnone⟩ := h
  obtain ⟨i, hi, hgetd⟩ := List.mem_iff_getElem.mp hr
  unfold processRepositories
  cases hfs : (taskResults client humanizeTime tnow options repositories).findSome?
      exceptError? with
  | some e => exact ⟨e, rfl⟩
  | none =>
    exfalso
    have hall := List.findSome?_eq_none_iff.mp hfs
    have hmem : (Except.error (FetchError.unparsableRepository r) :
        Except FetchError (List Change)) ∈
        taskResults client humanizeTime tnow options repositories := by
      unfold taskResults
      refine List.mem_map.mpr ⟨i, List.mem_range.mpr hi, ?_⟩
      rw [List.getD_eq_getElem repositories [] hi, hgetd]
      exact repositoryTask_error_of_unparsable client humanizeTime (tnow i) options r hnone
    have h2 := hall _ hmem
    simp [exceptError?] at h2

/-- C1 counterexample to the claim as stated: with the single repository
reference `"bad"`, which does not parse, `processRepositories` returns an
error rather than succeeding with the other repositories' changes — the
parse failure is escalated to the caller. -/
theorem processRepositories_unparsable_counterexample :
    processRepositories (fun _ _ _ => .ok []) (fun _ => []) (fun _ => 0)
        { concurrency := 10, since := 0, branchName := [109] }
        [asciiBytes "bad"] [0] =
      .error (.unparsableRepository (asciiBytes "bad")) := by
  decide

/-- C1 witness: the amended statement applied to a run over a parseable
and an unparsable reference. -/
theorem processRepositories_error_of_unparsable_witness :
    (∃ r ∈ [asciiBytes "https://github.com/a/x", asciiBytes "bad"],
        parseRepositoryOrgName r = none) ∧
      ∃ e, processRepositories (fun _ _ _ => .ok []) (fun _ => []) (fun _ => 0)
          { concurrency := 10, since := 0, branchName := [109] }
          [asciiBytes "https://github.com/a/x", asciiBytes "bad"] [0, 1] = .error e :=
  ⟨⟨asciiBytes "bad", by decide, by decide⟩,
    processRepositories_error_of_unparsable _ _ _ _ _ _
      ⟨asciiBytes "bad", by decide, by decide⟩⟩

/-- C3: when `processRepositories` succeeds, its result is sorted by
`originalTime` in non-decreasing order (oldest first) and is a permutation
of the concatenation of the per-repository change lists; nothing is
asserted about the relative order of equal timestamps. -/
theorem processRepositories_sorted_perm (client : GithubClient)
    (humanizeTime : Int → List Nat) (tnow : Nat → Int) (options : ProcessOptions)
    (repositories : List (List Nat)) (order : List Nat) (l : List Change)
    (horder : order.Perm (List.range repositories.length))
    (hok : processRepositories client humanizeTime tnow options repositories order =
      .ok l) :
    l.Pairwise (fun a b => a.originalTime ≤ b.originalTime) ∧
      l.Perm (perRepositoryChanges client humanizeTime tnow options repositories).flatten := by
  unfold processRepositories at hok
  cases hfs : (taskResults client humanizeTime tnow options repositories).findSome?
      exceptError? with
  | some e =>
    rw [hfs] at hok
    cases hok
  | none =>
    rw [hfs] at hok
    injection hok with hok
    subst hok
    refine ⟨sortChanges_sorted _, ?_⟩
    exact (sortChanges_perm _).trans
      (order_flatten_perm client humanizeTime tnow options repositories order horder)

/-- C2: a repository whose reference parses but whose remote call fails
yields an empty commit list and no error from `getRepositoryChanges`; with
every reference parseable the run completes, that repository contributes no
changes, and the output is a permutation of the union of the per-repository
change lists. -/
theorem processRepositories_absorbs_fetch_error (client : GithubClient)
    (humanizeTime : Int → List Nat) (tnow : Nat → Int) (options : ProcessOptions)
    (repositories : List (List Nat)) (order : List Nat) (i0 : Nat)
    (organization name errMsg : List Nat)
    (horder : order.Perm (List.range repositories.length))
    (hparse : ∀ r ∈ repositories, (parseRepositoryOrgName r).isSome = true)
    (hi0 : i0 < repositories.length)
    (horg : parseRepositoryOrgName (repositories.getD i0 []) = some (organization, name))
    (herr : client organization name
        { sha := options.branchName, since := tnow i0 - options.since } =
      .error errMsg) :
    getRepositoryChanges client (tnow i0) (repositories.getD i0 []) options = .ok [] ∧
      (perRepositoryChanges client humanizeTime tnow options repositories).getD i0 [] =
        [] ∧
      ∃ l, processRepositories client humanizeTime tnow options repositories order =
          .ok l ∧
        l.Perm (perRepositoryChanges client humanizeTime tnow options
          repositories).flatten := by
  have hchanges := getRepositoryChanges_client_error client (tnow i0)
    (repositories.getD i0 []) options organization name errMsg horg herr
  refine ⟨hchanges, ?_, ?_⟩
  · rw [perRepositoryChanges_getD client humanizeTime tnow options repositories i0 hi0]
    unfold repositoryTask
    rw [hchanges]
    rfl
  · refine ⟨_, processRepositories_ok client humanizeTime tnow options repositories order
      hparse, ?_⟩
    exact (sortChanges_perm _).trans
      (order_flatten_perm client humanizeTime tnow options repositories order horder)

/-- C8 (amended): the commit-time cutoff of a fetch is computed from the
wall-clock value read inside that repository's task: the fetcher depends on
the client only through its value at (organization, name,
`options.branchName`, `now - options.since`), so each repository's cutoff
is its own task's `time.Now()` minus `options.since`, not a single
run-start timestamp. -/
theorem getRepositoryChanges_cutoff (client : GithubClient) (now : Int)
    (repository organization name : List Nat) (options : ProcessOptions)
    (hp : parseRepositoryOrgName repository = some (organization, name)) :
    getRepositoryChanges client now repository options =
      match client organization name
          { sha := options.branchName, since := now - options.since } with
      | .error _ => .ok []
      | .ok commits => .ok commits :=
  getRepositoryChanges_parsed client now repository options organization name hp

unseal List.merge List.mergeSort in
/-- C8 counterexample to the claim as stated: with a client that echoes the
`Since` cutoff it was called with into the commit timestamp, two
repositories fetched at wall-clock times 100 and 200 with `since = 10`
produce changes stamped 90 and 190 — two different cutoffs in one run, not
one timestamp fixed at the start of the run. -/
theorem processRepositories_cutoffs_differ :
    processRepositories
        (fun _ _ opts => .ok [{ htmlURL := [], commit :=
          { message := [], committerDate := opts.since } }])
        (fun _ => []) (fun i => if i == 0 then 100 else 200)
        { concurrency := 10, since := 10, branchName := [109] }
        [asciiBytes "https://github.com/a/x", asciiBytes "https://github.com/b/x"]
        [0, 1] =
      .ok [{ url := [], message := [], time := [],
             repository := asciiBytes "https://github.com/a/x", originalTime := 90 },
           { url := [], message := [], time := [],
             repository := asciiBytes "https://github.com/b/x", originalTime := 190 }] := by
  decide

/-- C8 witness: the amended statement applied to a concrete parseable
repository. -/
theorem getRepositoryChanges_cutoff_witness :
    parseRepositoryOrgName (asciiBytes "https://github.com/a/x") =
        some (asciiBytes "a", asciiBytes "x") ∧
      getRepositoryChanges (fun _ _ _ => .ok []) 100 (asciiBytes "https://github.com/a/x")
          { concurrency := 10, since := 10, branchName := [109] } =
        match (fun (_ _ : List Nat) (_ : CommitsListOptions) =>
            (.ok [] : Except (List Nat) (List RepositoryCommit))) (asciiBytes "a")
            (asciiBytes "x") { sha := [109], since := 100 - 10 } with
        | .error _ => .ok []
        | .ok commits => .ok commits :=
  ⟨by decide, getRepositoryChanges_cutoff (fun _ _ _ => .ok []) 100
    (asciiBytes "https://github.com/a/x") (asciiBytes "a") (asciiBytes "x")
    { concurrency := 10, since := 10, branchName := [109] } (by decide)⟩

unseal List.merge List.mergeSort in
/-- C3 witness: three repositories with commit times 3, 1 and 2 and
completion order `[2, 0, 1]`; the statement is applied to the evaluated
output, which is the times-1-2-3 ordering. -/
theorem processRepositories_sorted_perm_witness :
    ([2, 0, 1].Perm (List.range ([asciiBytes "https://github.com/a/x",
        asciiBytes "https://github.com/b/x", asciiBytes "https://github.com/c/x"] :
        List (List Nat)).length)) ∧
      processRepositories
          (fun org _ _ => .ok [⟨org, ⟨[104],
            if org = [97] then 3 else if org = [98] then 1 else 2⟩⟩])
          (fun _ => []) (fun _ => 0) { concurrency := 10, since := 0, branchName := [109] }
          [asciiBytes "https://github.com/a/x", asciiBytes "https://github.com/b/x",
            asciiBytes "https://github.com/c/x"] [2, 0, 1] =
        .ok [{ url := [98], message := [104], time := [],
               repository := asciiBytes "https://github.com/b/x", originalTime := 1 },
             { url := [99], message := [104], time := [],
               repository := asciiBytes "https://github.com/c/x", originalTime := 2 },
             { url := [97], message := [104], time := [],
               repository := asciiBytes "https://github.com/a/x", originalTime := 3 }] ∧
      ([{ url := [98], message := [104], time := [],
          repository := asciiBytes "https://github.com/b/x", originalTime := 1 },
        { url := [99], message := [104], time := [],
          repository := asciiBytes "https://github.com/c/x", originalTime := 2 },
        { url := [97], message := [104], time := [],
          repository := asciiBytes "https://github.com/a/x",
          originalTime := 3 }] : List Change).Pairwise
          (fun a b => a.originalTime ≤ b.originalTime) ∧
        ([{ url := [98], message := [104], time := [],
            repository := asciiBytes "https://github.com/b/x", originalTime := 1 },
          { url := [99], message := [104], time := [],
            repository := asciiBytes "https://github.com/c/x", originalTime := 2 },
          { url := [97], message := [104], time := [],
            repository := asciiBytes "https://github.com/a/x",
            originalTime := 3 }] : List Change).Perm
          (perRepositoryChanges
            (fun org _ _ => .ok [⟨org, ⟨[104],
              if org = [97] then 3 else if org = [98] then 1 else 2⟩⟩])
            (fun _ => []) (fun _ => 0)
            { concurrency := 10, since := 0, branchName := [109] }
            [asciiBytes "https://github.com/a/x", asciiBytes "https://github.com/b/x",
              asciiBytes "https://github.com/c/x"]).flatten :=
  ⟨by decide, by decide,
    processRepositories_sorted_perm
      (fun org _ _ => .ok [⟨org, ⟨[104],
        if org = [97] then 3 else if org = [98] then 1 else 2⟩⟩])
      (fun _ => []) (fun _ => 0) { concurrency := 10, since := 0, branchName := [109] }
      [asciiBytes "https://github.com/a/x", asciiBytes "https://github.com/b/x",
        asciiBytes "https://github.com/c/x"] [2, 0, 1]
      [{ url := [98], message := [104], time := [],
         repository := asciiBytes "https://github.com/b/x", originalTime := 1 },
       { url := [99], message := [104], time := [],
         repository := asciiBytes "https://github.com/c/x", originalTime := 2 },
       { url := [97], message := [104], time := [],
         repository := asciiBytes "https://github.com/a/x", originalTime := 3 }]
      (by decide) (by decide)⟩

/-- C2 witness: three parseable repositories where the remote call for the
second one fails; the statement is applied there. -/
theorem processRepositories_absorbs_fetch_error_witness :
    ([0, 1, 2].Perm (List.range ([asciiBytes "https://github.com/a/x",
          asciiBytes "https://github.com/b/x", asciiBytes "https://github.com/c/x"] :
          List (List Nat)).length) ∧
        (∀ r ∈ [asciiBytes "https://github.com/a/x", asciiBytes "https://github.com/b/x",
          asciiBytes "https://github.com/c/x"], (parseRepositoryOrgName r).isSome = true) ∧
        1 < ([asciiBytes "https://github.com/a/x", asciiBytes "https://github.com/b/x",
          asciiBytes "https://github.com/c/x"] : List (List Nat)).length) ∧
      (getRepositoryChanges
          (fun org _ _ => if org = [98] then .error [33] else .ok [⟨org, ⟨[104], 5⟩⟩])
          ((fun _ => (0 : Int)) 1)
          ([asciiBytes "https://github.com/a/x", asciiBytes "https://github.com/b/x",
            asciiBytes "https://github.com/c/x"].getD 1 [])
          { concurrency := 10, since := 0, branchName := [109] } = .ok [] ∧
        (perRepositoryChanges
          (fun org _ _ => if org = [98] then .error [33] else .ok [⟨org, ⟨[104], 5⟩⟩])
          (fun _ => []) (fun _ => 0) { concurrency := 10, since := 0, branchName := [109] }
          [asciiBytes "https://github.com/a/x", asciiBytes "https://github.com/b/x",
            asciiBytes "https://github.com/c/x"]).getD 1 [] = [] ∧
        ∃ l, processRepositories
            (fun org _ _ => if org = [98] then .error [33] else .ok [⟨org, ⟨[104], 5⟩⟩])
            (fun _ => []) (fun _ => 0)
            { concurrency := 10, since := 0, branchName := [109] }
            [asciiBytes "https://github.com/a/x", asciiBytes "https://github.com/b/x",
              asciiBytes "https://github.com/c/x"] [0, 1, 2] = .ok l ∧
          l.Perm (perRepositoryChanges
            (fun org _ _ => if org = [98] then .error [33] else .ok [⟨org, ⟨[104], 5⟩⟩])
            (fun _ => []) (fun _ => 0)
            { concurrency := 10, since := 0, branchName := [109] }
            [asciiBytes "https://github.com/a/x", asciiBytes "https://github.com/b/x",
              asciiBytes "https://github.com/c/x"]).flatten) :=
  ⟨⟨by decide, by decide, by decide⟩,
    processRepositories_absorbs_fetch_error
      (fun org _ _ => if org = [98] then .error [33] else .ok [⟨org, ⟨[104], 5⟩⟩])
      (fun _ => []) (fun _ => 0) { concurrency := 10, since := 0, branchName := [109] }
      [asciiBytes "https://github.com/a/x", asciiBytes "https://github.com/b/x",
        asciiBytes "https://github.com/c/x"] [0, 1, 2] 1 [98] [120] [33]
      (by decide) (by decide) (by decide) (by decide) (by decide)⟩
